import Mathlib

/-!
Shallow embedding of the attendance ingestion and normalization pipeline of
the Attendance repository (src/attendance/views.py `upload_attendance`,
src/attendance/models.py `Attendance`), together with proofs settling the
claims about it.

Conventions of the embedding:
* pandas cells are modelled as strings (the pipeline stringifies the email and
  time columns with `astype(str)`, and the claims only exercise string cells);
* the pandas parsing calls (`pd.to_datetime` with `dayfirst=True`,
  fixed-`format` parses, `pd.to_numeric`, Excel serial conversion) are
  modelled by executable Lean parsers restricted to the separator-based
  numeric formats those calls handle on the inputs of interest;
* the Django ORM store is a list of records; `update_or_create` keyed on
  `(employee_email, date)` updates the first match in place or appends.
-/

/-- Python `c.lower()` on a single character (ASCII case folding, as
`Char.toLower` does). -/
def pyCharLower (c : Char) : Char := c.toLower

/-- Python `s.lower()`: lowercase every character. -/
def pyLower (s : String) : String := ⟨s.data.map pyCharLower⟩

/-- Python `s.strip()` on a character list: drop whitespace from both ends. -/
def stripL (cs : List Char) : List Char :=
  ((cs.dropWhile Char.isWhitespace).reverse.dropWhile Char.isWhitespace).reverse

/-- Python `s.strip()`: drop whitespace from both ends. -/
def pyStrip (s : String) : String := ⟨stripL s.data⟩

/-- Split a character list on a separator character, keeping empty pieces
(the behavior of `str.split(sep)` for one-character separators, which is how
the format models cut their fields). -/
def splitOnCharAux (sep : Char) : List Char → List Char → List (List Char)
  | [], acc => [acc.reverse]
  | c :: cs, acc =>
      if c = sep then acc.reverse :: splitOnCharAux sep cs []
      else splitOnCharAux sep cs (c :: acc)

/-- Split a character list on a separator character. -/
def splitOnChar (sep : Char) (cs : List Char) : List (List Char) :=
  splitOnCharAux sep cs []

/-- Whether the first list is an initial segment of the second. -/
def startsWithList : List Char → List Char → Bool
  | [], _ => true
  | _ :: _, [] => false
  | a :: as, b :: bs => a = b && startsWithList as bs

/-- Whether the first list occurs contiguously inside the second. -/
def containsList (needle : List Char) : List Char → Bool
  | [] => needle.isEmpty
  | b :: bs => startsWithList needle (b :: bs) || containsList needle bs

/-- Python `needle in hay` on strings: substring containment. -/
def pyIn (needle hay : String) : Bool := containsList needle.data hay.data

/-- Parse a nonempty all-digit character list as a natural number (the
numeric field parser underlying the date/time format models). -/
def parseNat? (cs : List Char) : Option Nat :=
  if cs ≠ [] ∧ cs.all Char.isDigit then
    some (cs.foldl (fun acc c => acc * 10 + (c.toNat - 48)) 0)
  else none

/-- A calendar date as parsed from the upload. -/
structure Date where
  year : Nat
  month : Nat
  day : Nat
deriving DecidableEq, Repr

/-- A time of day as parsed from the upload (what pandas `.dt.time` keeps). -/
structure Time where
  hour : Nat
  minute : Nat
  second : Nat
deriving DecidableEq, Repr

/-- Seconds since midnight; the comparison key for times of day. -/
def Time.toSeconds (t : Time) : Nat := t.hour * 3600 + t.minute * 60 + t.second

/-- Parse `h:m` or `h:m:s` with in-range components (model of the clock part
of pandas datetime parsing and of the `%H:%M[:%S]` formats). -/
def parseClock (cs : List Char) : Option Time :=
  match splitOnChar ':' cs with
  | [h, m] => do
      let hn ← parseNat? h
      let mn ← parseNat? m
      if hn < 24 ∧ mn < 60 then pure ⟨hn, mn, 0⟩ else none
  | [h, m, sec] => do
      let hn ← parseNat? h
      let mn ← parseNat? m
      let sn ← parseNat? sec
      if hn < 24 ∧ mn < 60 ∧ sn < 60 then pure ⟨hn, mn, sn⟩ else none
  | _ => none

/-- Disambiguation of a slash date `a/b/y` under pandas `dayfirst=True`:
prefer reading `a` as the day and `b` as the month; fall back to month-first
only when the day-first reading is invalid. -/
def mkDayfirst (a b y : Nat) : Option Date :=
  if 1 ≤ a ∧ a ≤ 31 ∧ 1 ≤ b ∧ b ≤ 12 then some ⟨y, b, a⟩
  else if 1 ≤ a ∧ a ≤ 12 ∧ 1 ≤ b ∧ b ≤ 31 then some ⟨y, a, b⟩
  else none

/-- Parse a `d/m/yyyy` slash date day-first (model of the date part of
pandas `to_datetime(..., dayfirst=True)` on slash-separated numeric dates). -/
def parseSlashDate (cs : List Char) : Option Date :=
  match splitOnChar '/' cs with
  | [a, b, c] => do
      let an ← parseNat? a
      let bn ← parseNat? b
      let cn ← parseNat? c
      if 1000 ≤ cn ∧ cn ≤ 9999 then mkDayfirst an bn cn else none
  | _ => none

/-- Model of the generic pandas parse
`pd.to_datetime(s, errors="coerce", dayfirst=True)` restricted to the inputs
this pipeline feeds it: an optional slash date followed by an optional clock,
or a bare clock (whose implied date, today, is irrelevant here and kept as
`none`). Anything else coerces to NaT (`none`). -/
def genericParseDayfirst (cs : List Char) : Option (Option Date × Time) :=
  match splitOnChar ' ' (stripL cs) with
  | [one] =>
      if containsList [':'] one then (parseClock one).map (fun t => (none, t))
      else (parseSlashDate one).map (fun d => (some d, ⟨0, 0, 0⟩))
  | [d, t] => do
      let dd ← parseSlashDate d
      let tt ← parseClock t
      pure (some dd, tt)
  | _ => none

/-- Model of views.py line 310: `pd.to_datetime(df[col_date], errors="coerce",
dayfirst=True).dt.date` on one cell. -/
def pdDate (s : String) : Option Date :=
  match genericParseDayfirst s.data with
  | some (some d, _) => some d
  | _ => none

/-- Strict-format parse `d/m/Y h:m:s` (model of pandas
`format="%d/%m/%Y %H:%M:%S"`, views.py line 331). -/
def parse_dmY_HMS (cs : List Char) : Option Time :=
  match splitOnChar ' ' cs with
  | [d, t] =>
      match splitOnChar '/' d, splitOnChar ':' t with
      | [a, b, c], [h, m, sec] => do
          let an ← parseNat? a
          let bn ← parseNat? b
          let _ ← parseNat? c
          let hn ← parseNat? h
          let mn ← parseNat? m
          let sn ← parseNat? sec
          if 1 ≤ an ∧ an ≤ 31 ∧ 1 ≤ bn ∧ bn ≤ 12 ∧ hn < 24 ∧ mn < 60 ∧ sn < 60 then
            pure ⟨hn, mn, sn⟩
          else none
      | _, _ => none
  | _ => none

/-- Strict-format parse `m/d/Y h:m:s` (model of pandas
`format="%m/%d/%Y %H:%M:%S"`, views.py line 336). -/
def parse_mdY_HMS (cs : List Char) : Option Time :=
  match splitOnChar ' ' cs with
  | [d, t] =>
      match splitOnChar '/' d, splitOnChar ':' t with
      | [a, b, c], [h, m, sec] => do
          let an ← parseNat? a
          let bn ← parseNat? b
          let _ ← parseNat? c
          let hn ← parseNat? h
          let mn ← parseNat? m
          let sn ← parseNat? sec
          if 1 ≤ an ∧ an ≤ 12 ∧ 1 ≤ bn ∧ bn ≤ 31 ∧ hn < 24 ∧ mn < 60 ∧ sn < 60 then
            pure ⟨hn, mn, sn⟩
          else none
      | _, _ => none
  | _ => none

/-- Strict-format parse `h:m:s` (pandas `format="%H:%M:%S"`, line 341). -/
def parse_HMS (cs : List Char) : Option Time :=
  match splitOnChar ':' cs with
  | [h, m, sec] => do
      let hn ← parseNat? h
      let mn ← parseNat? m
      let sn ← parseNat? sec
      if hn < 24 ∧ mn < 60 ∧ sn < 60 then pure ⟨hn, mn, sn⟩ else none
  | _ => none

/-- Strict-format parse `h:m` (pandas `format="%H:%M"`, line 343). -/
def parse_HM (cs : List Char) : Option Time :=
  match splitOnChar ':' cs with
  | [h, m] => do
      let hn ← parseNat? h
      let mn ← parseNat? m
      if hn < 24 ∧ mn < 60 then pure ⟨hn, mn, 0⟩ else none
  | _ => none

/-- A nonnegative decimal number `whole + num / den` with `den = 10 ^ k`, as
produced by `pd.to_numeric` on a decimal string (views.py line 349). -/
structure Decimal where
  whole : Nat
  num : Nat
  den : Nat
deriving DecidableEq, Repr

/-- Model of `pd.to_numeric(s, errors="coerce")` restricted to nonnegative
decimal literals. -/
def parseNumeric (cs : List Char) : Option Decimal :=
  match splitOnChar '.' cs with
  | [w] => (parseNat? w).map (fun n => ⟨n, 0, 1⟩)
  | [w, f] => do
      let wn ← parseNat? w
      let fn ← parseNat? f
      pure ⟨wn, fn, 10 ^ f.length⟩
  | _ => none

/-- Time-of-day component of an Excel serial number: the fractional part of
the day count, as seconds (model of
`pd.to_datetime(x, unit="d", origin="1899-12-30").dt.time`, line 352). -/
def excelSerialTime (x : Decimal) : Time :=
  let secs := x.num * 86400 / x.den
  ⟨secs / 3600, secs % 3600 / 60, secs % 60⟩

/-- Replace non-breaking spaces with ordinary spaces (views.py line 322). -/
def replaceNbsp (cs : List Char) : List Char :=
  cs.map (fun c => if c = '\u00A0' then ' ' else c)

/-- Stringify-and-clean step applied to every time cell before parsing
(views.py line 322): replace NBSP, then strip. -/
def cleanTimeCell (cs : List Char) : List Char := stripL (replaceNbsp cs)

/-- The cascading time parse of views.py lines 319-357: generic day-first
parse, then the fixed formats `%d/%m/%Y %H:%M:%S`, `%m/%d/%Y %H:%M:%S`,
`%H:%M:%S`, `%H:%M`, finally numeric cells as Excel day serials; each stage
runs only on cells every earlier stage left unparsed. Only the time-of-day
part is kept (`.dt.time`, line 357). -/
def parseTimeCell (s : String) : Option Time :=
  let cs := cleanTimeCell s.data
  match genericParseDayfirst cs with
  | some (_, t) => some t
  | none =>
    match parse_dmY_HMS cs with
    | some t => some t
    | none =>
      match parse_mdY_HMS cs with
      | some t => some t
      | none =>
        match parse_HMS cs with
        | some t => some t
        | none =>
          match parse_HM cs with
          | some t => some t
          | none => (parseNumeric cs).map excelSerialTime

/-- Header normalization of views.py line 287:
`[str(c).strip().lower() for c in df.columns]`. -/
def normHeaders (hs : List String) : List String :=
  hs.map (fun c => pyLower (pyStrip c))

/-- Column pick for the date (views.py lines 290-293): the exact header
`"date"` if present, else the first header containing `"date"` but neither
`"month"` nor `"report"`. -/
def colDate (cols : List String) : Option String :=
  if cols.contains "date" then some "date"
  else cols.find? (fun c => pyIn "date" c && !pyIn "month" c && !pyIn "report" c)

/-- The fixed candidate list of views.py line 294. -/
def inTimeCandidates : List String :=
  ["in time", "in_time", "intime", "check in time", "check-in", "check_in"]

/-- Column pick for the check-in time (views.py lines 295-300): first
candidate from `inTimeCandidates` present among the headers, else the exact
header `"time"`, else the first header containing `"time"` but neither
`"out"` nor `"logout"`. -/
def colTime (cols : List String) : Option String :=
  match inTimeCandidates.find? (fun c => cols.contains c) with
  | some c => some c
  | none =>
      if cols.contains "time" then some "time"
      else cols.find? (fun c => pyIn "time" c && !pyIn "out" c && !pyIn "logout" c)

/-- Column pick for the email (views.py line 301): the first header
containing `"email"`. -/
def colEmail (cols : List String) : Option String :=
  cols.find? (fun c => pyIn "email" c)

/-- The missing-column labels of views.py line 303, in the dict order
`Date`, `Time`, `Email`. -/
def missingLabels (cols : List String) : List String :=
  (if (colDate cols).isNone then ["Date"] else []) ++
  (if (colTime cols).isNone then ["Time"] else []) ++
  (if (colEmail cols).isNone then ["Email"] else [])

/-- The uploaded table: header names and rows of string cells. -/
structure Table where
  headers : List String
  rows : List (List String)
deriving Repr

/-- Cell of a row under a (normalized) column name: the entry at the first
index where the normalized headers equal that name. -/
def cellAt (cols : List String) (row : List String) (col : String) : String :=
  match cols.findIdx? (fun c => c = col) with
  | some i => row.getD i ""
  | none => ""

/-- A normalized row: the `__email`, `__date`, `__time` columns views.py
lines 310-357 attach to the frame. The email is never absent because
`astype(str)` always yields a string. -/
structure NRow where
  email : String
  date : Option Date
  time : Option Time
deriving DecidableEq, Repr

/-- Per-row normalization (views.py lines 310, 316, 319-357). -/
def normalizeRow (cols : List String) (cd ct ce : String) (row : List String) : NRow :=
  { email := pyLower (pyStrip (cellAt cols row ce))
    date := pdDate (cellAt cols row cd)
    time := parseTimeCell (cellAt cols row ct) }

/-- First-occurrence deduplication with a seen-set accumulator. -/
def firstDedupAux {α : Type} [DecidableEq α] : List α → List α → List α
  | _, [] => []
  | seen, a :: as =>
      if a ∈ seen then firstDedupAux seen as
      else a :: firstDedupAux (a :: seen) as

/-- First-occurrence deduplication, the effect of pandas `drop_duplicates`
and of `groupby` key formation. -/
def firstDedup {α : Type} [DecidableEq α] (l : List α) : List α :=
  firstDedupAux [] l

/-- Rows surviving `dropna(subset=["__date", "__time", "__email"])`
(views.py line 370), carried as `(email, date, time)` triples; the email
is never NaN, so only date and time can exclude a row. -/
def cleanRows (nrows : List NRow) : List (String × Date × Time) :=
  nrows.filterMap (fun r =>
    match r.date, r.time with
    | some d, some t => some (r.email, d, t)
    | _, _ => none)

/-- Check-in times of the clean rows of one `(email, date)` group. -/
def groupTimes (clean : List (String × Date × Time)) (k : String × Date) : List Time :=
  clean.filterMap (fun c => if (c.1, c.2.1) = k then some c.2.2 else none)

/-- Earliest element of a list of times (the `agg({"__time": "min"})` of
views.py line 376). -/
def minTime? : List Time → Option Time
  | [] => none
  | t :: ts =>
      match minTime? ts with
      | none => some t
      | some m => if m.toSeconds < t.toSeconds then some m else some t

/-- The `earliest` frame of views.py lines 373-377: one entry per distinct
`(email, date)` key of the clean rows, carrying the minimum time of the
group. -/
def earliestGroups (clean : List (String × Date × Time)) :
    List ((String × Date) × Time) :=
  (firstDedup (clean.map (fun c => (c.1, c.2.1)))).filterMap
    (fun k => (minTime? (groupTimes clean k)).map (fun t => (k, t)))

/-- A Django `auth.User` as this pipeline consumes it. -/
structure UserRec where
  id : Nat
  email : String
deriving DecidableEq, Repr

/-- One row of the `Attendance` table (models.py lines 5-44). The `employee`
field carries the linked `User` instance, as the in-memory Django object
does when `update_or_create` assigns it. -/
structure AttRecord where
  employee : Option UserRec
  employee_email : String
  date : Date
  check_in_time : Option Time
  status : Char
deriving DecidableEq, Repr

/-- Model of `User.objects.filter(email__iexact=eml).first()`
(views.py line 388). -/
def findUserByEmail (users : List UserRec) (eml : String) : Option UserRec :=
  users.find? (fun u => pyLower u.email = pyLower eml)

/-- Model of `Attendance.save` (models.py lines 38-44): re-derive the status
from the check-in time, then backfill an empty `employee_email` from the
linked user's email when that user has one. -/
def attendanceSave (r : AttRecord) : AttRecord :=
  let r1 := { r with status := if r.check_in_time.isSome then 'P' else 'A' }
  if r1.employee_email = "" then
    match r1.employee with
    | some u =>
        if u.email ≠ "" then
          { r1 with employee_email := pyLower (pyStrip u.email) }
        else r1
    | none => r1
  else r1

/-- Replace the first element satisfying the test, in place. -/
def replaceFirst {α : Type} (p : α → Bool) (f : α → α) : List α → List α
  | [] => []
  | a :: as => if p a then f a :: as else a :: replaceFirst p f as

/-- The record written by a creating upsert: the literal of views.py lines
389-397 run through `save`. -/
def newRecord (users : List UserRec) (eml : String) (d : Date) (t : Time) :
    AttRecord :=
  attendanceSave
    { employee := findUserByEmail users eml
      employee_email := eml
      date := d
      check_in_time := some t
      status := 'P' }

/-- The record written by an updating upsert: the matched record with the
`defaults` of views.py lines 392-396 applied, run through `save`. -/
def updatedRecord (users : List UserRec) (r0 : AttRecord) (eml : String)
    (t : Time) : AttRecord :=
  attendanceSave
    { r0 with
      check_in_time := some t
      status := 'P'
      employee := findUserByEmail users eml }

/-- Model of `Attendance.objects.update_or_create(employee_email=eml, date=d,
defaults={check_in_time, status "P", employee})` (views.py lines 388-397):
look the key up; update the first match in place through `save`, or create a
fresh record through `save`. Returns the new store, the written record, and
the `was_created` flag. -/
def updateOrCreate (users : List UserRec) (store : List AttRecord)
    (eml : String) (d : Date) (t : Time) : List AttRecord × AttRecord × Bool :=
  match store.find? (fun r => r.employee_email = eml && r.date = d) with
  | some r0 =>
      (replaceFirst (fun r => r.employee_email = eml && r.date = d)
        (fun _ => updatedRecord users r0 eml t) store,
       updatedRecord users r0 eml t, false)
  | none =>
      (store ++ [newRecord users eml d t], newRecord users eml d t, true)

/-- The upsert loop of views.py lines 382-401: one `update_or_create` per
earliest-group, counting created and updated records. The email key is
lowercased once more (`str(row["__email"]).lower()`, line 384). -/
def upsertAll (users : List UserRec) :
    List AttRecord → List ((String × Date) × Time) → List AttRecord × Nat × Nat
  | store, [] => (store, 0, 0)
  | store, g :: gs =>
      let step := updateOrCreate users store (pyLower g.1.1) g.1.2 g.2
      let rest := upsertAll users step.1 gs
      if step.2.2 then (rest.1, rest.2.1 + 1, rest.2.2)
      else (rest.1, rest.2.1, rest.2.2 + 1)

/-- The diagnostic counters reported by views.py lines 359-409. -/
structure Diag where
  totalRows : Nat
  distinctPairsAnyTime : Nat
  unparseableTimeRows : Nat
  processedGroups : Nat
  created : Nat
  updated : Nat
deriving DecidableEq, Repr

/-- Outcome of one upload request past the file-read stage. -/
inductive UploadResult where
  | missingColumns (labels : List String)
  | ok (d : Diag)
deriving DecidableEq, Repr

/-- The ingestion pipeline of `upload_attendance` (views.py lines 286-412)
from the loaded table on: normalize headers, resolve the three columns (or
abort with the missing labels and an untouched store), normalize every row,
compute the diagnostics, group to earliest check-ins, and upsert each group
into the store. -/
def uploadAttendance (users : List UserRec) (store : List AttRecord)
    (tbl : Table) : List AttRecord × UploadResult :=
  let cols := normHeaders tbl.headers
  match colDate cols, colTime cols, colEmail cols with
  | some cd, some ct, some ce =>
      let nrows := tbl.rows.map (normalizeRow cols cd ct ce)
      let totalRows := tbl.rows.length
      let pairsAnyTime :=
        (firstDedup ((nrows.filter (fun r => r.date.isSome)).map
          (fun r => (r.email, r.date)))).length
      let nullTimeRows := (nrows.filter (fun r => r.time.isNone)).length
      let clean := cleanRows nrows
      let earliest := earliestGroups clean
      let res := upsertAll users store earliest
      (res.1, .ok ⟨totalRows, pairsAnyTime, nullTimeRows, earliest.length,
        res.2.1, res.2.2⟩)
  | _, _, _ => (store, .missingColumns (missingLabels cols))

/-- The end-to-end scenario input of the spec: two rows for `a@x.com` on
`01/05/2024` at `09:00` and `08:30`, one row for `b@y.com` with an
unparseable time. -/
def tblScenario : Table :=
  ⟨["email", "date", "time"],
   [["a@x.com", "01/05/2024", "09:00"],
    ["a@x.com", "01/05/2024", "08:30"],
    ["b@y.com", "01/05/2024", "bad"]]⟩

/-- Two rows for the same identity and day at `09:10` and `08:55`. -/
def tblEarliest : Table :=
  ⟨["email", "date", "time"],
   [["a@x.com", "01/05/2024", "09:10"],
    ["a@x.com", "01/05/2024", "08:55"]]⟩

/-- One row whose identity cell is whitespace only, with a valid date and
time. -/
def tblBlankIdentity : Table :=
  ⟨["email", "date", "time"],
   [[" ", "01/05/2024", "09:00"]]⟩

/-- Headers from which neither a date nor a time column can be resolved
("report date" is excluded by the report heuristic). -/
def tblNoDateTime : Table :=
  ⟨["email", "report date"], [["a@x.com", "x"]]⟩

/-- Key of a stored record, the upsert identity `(employee_email, date)`. -/
def recordKey (r : AttRecord) : String × Date := (r.employee_email, r.date)

/-- Keys of a store, in store order. -/
def storeKeys (store : List AttRecord) : List (String × Date) :=
  store.map recordKey

/-- Key under which the upsert loop writes one earliest-group
(`str(row["__email"]).lower()`, views.py line 384). -/
def groupKey (g : (String × Date) × Time) : String × Date :=
  (pyLower g.1.1, g.1.2)

/-- The identity-column rule in the spec's words: scan the headers in order
and return the first containing "email". Stated independently of the source
resolver to compare the two. -/
def specColEmail : List String → Option String
  | [] => none
  | c :: cs => if pyIn "email" c then some c else specColEmail cs

/-- Exact header membership by an in-order scan, as the spec reads. -/
def specHasHeader (name : String) : List String → Bool
  | [] => false
  | c :: cs => if c = name then true else specHasHeader name cs

/-- In-order scan for a header containing "date" but neither "month" nor
"report". -/
def specScanDate : List String → Option String
  | [] => none
  | c :: cs =>
      if pyIn "date" c && !pyIn "month" c && !pyIn "report" c then some c
      else specScanDate cs

/-- The date-column rule in the spec's words: the exact header "date" when
present, else the first header containing "date" but neither "month" nor
"report". -/
def specColDate (cols : List String) : Option String :=
  if specHasHeader "date" cols then some "date" else specScanDate cols

/-- In-order scan of the fixed candidate list for the first candidate that
is an exact header. -/
def specTimeCands (cols : List String) : List String → Option String
  | [] => none
  | cand :: cands =>
      if specHasHeader cand cols then some cand else specTimeCands cols cands

/-- In-order scan for a header containing "time" but neither "out" nor
"logout". -/
def specScanTime : List String → Option String
  | [] => none
  | c :: cs =>
      if pyIn "time" c && !pyIn "out" c && !pyIn "logout" c then some c
      else specScanTime cs

/-- The time-column rule in the spec's words: first exact match from the
candidate list, else the exact header "time", else the first header
containing "time" but neither "out" nor "logout". -/
def specColTime (cols : List String) : Option String :=
  match specTimeCands cols inTimeCandidates with
  | some c => some c
  | none =>
      if specHasHeader "time" cols then some "time" else specScanTime cols

/-- Characters below the surrogate range survive the `Char.ofNat` round
trip. -/
theorem toNat_ofNat_small (n : Nat) (h : n < 128) : (Char.ofNat n).toNat = n := by
  have hv : Char.isValidCharNat n := Or.inl (by omega)
  rw [Char.ofNat, dif_pos hv]
  simp [Char.ofNatAux, Char.toNat, UInt32.ofNat', UInt32.toNat, BitVec.toNat_ofNatLt]

/-- Lowercasing a character twice is the same as lowercasing it once. -/
theorem pyCharLower_idem (c : Char) : pyCharLower (pyCharLower c) = pyCharLower c := by
  unfold pyCharLower Char.toLower
  by_cases h : c.toNat ≥ 65 ∧ c.toNat ≤ 90
  · rw [if_pos h]
    have h2 : (Char.ofNat (c.toNat + 32)).toNat = c.toNat + 32 :=
      toNat_ofNat_small _ (by omega)
    rw [if_neg (by omega)]
  · rw [if_neg h, if_neg h]

/-- Lowercasing a string twice is the same as lowercasing it once. -/
theorem pyLower_idem (s : String) : pyLower (pyLower s) = pyLower s := by
  unfold pyLower
  refine congrArg String.mk ?_
  show (s.data.map pyCharLower).map pyCharLower = s.data.map pyCharLower
  rw [List.map_map]
  exact List.map_congr_left (fun a _ => pyCharLower_idem a)

/-- Only the empty string lowercases to the empty string. -/
theorem pyLower_eq_empty {s : String} (h : pyLower s = "") : s = "" := by
  unfold pyLower at h
  have hd : s.data.map pyCharLower = [] := congrArg String.data h
  rcases s with ⟨d⟩
  cases d with
  | nil => rfl
  | cons c cs => simp at hd

/-- Membership in the accumulator version of deduplication: an element is
kept when it occurs in the list and is not among the already-seen ones. -/
theorem mem_firstDedupAux {α : Type} [DecidableEq α] (l : List α) :
    ∀ (seen : List α) (x : α),
      x ∈ firstDedupAux seen l ↔ x ∈ l ∧ x ∉ seen := by
  induction l with
  | nil => intro seen x; simp [firstDedupAux]
  | cons a as ih =>
      intro seen x
      rw [firstDedupAux]
      by_cases ha : a ∈ seen
      · rw [if_pos ha, ih]
        constructor
        · rintro ⟨h1, h2⟩; exact ⟨List.mem_cons_of_mem _ h1, h2⟩
        · rintro ⟨h1, h2⟩
          rcases List.mem_cons.mp h1 with h1 | h1
          · subst h1; exact absurd ha h2
          · exact ⟨h1, h2⟩
      · rw [if_neg ha]
        by_cases hx : x = a
        · subst hx; simp [ha]
        · simp [hx, ih]

/-- Membership in a first-occurrence deduplication is membership in the
original list. -/
theorem mem_firstDedup {α : Type} [DecidableEq α] (l : List α) (x : α) :
    x ∈ firstDedup l ↔ x ∈ l := by
  rw [firstDedup, mem_firstDedupAux]
  simp

/-- The accumulator version of deduplication has no duplicates. -/
theorem nodup_firstDedupAux {α : Type} [DecidableEq α] (l : List α) :
    ∀ seen : List α, (firstDedupAux seen l).Nodup := by
  induction l with
  | nil => intro seen; simp [firstDedupAux]
  | cons a as ih =>
      intro seen
      rw [firstDedupAux]
      by_cases ha : a ∈ seen
      · rw [if_pos ha]; exact ih seen
      · rw [if_neg ha]
        refine List.nodup_cons.mpr ⟨?_, ih (a :: seen)⟩
        intro hmem
        have := (mem_firstDedupAux as (a :: seen) a).mp hmem
        exact this.2 (List.mem_cons_self _ _)

/-- A first-occurrence deduplication has no duplicates. -/
theorem nodup_firstDedup {α : Type} [DecidableEq α] (l : List α) :
    (firstDedup l).Nodup := nodup_firstDedupAux l []

/-- The minimum of a time list is absent exactly for the empty list. -/
theorem minTime?_eq_none {ts : List Time} (h : minTime? ts = none) : ts = [] := by
  cases ts with
  | nil => rfl
  | cons a as =>
      rw [minTime?] at h
      cases hm : minTime? as with
      | none => rw [hm] at h; dsimp only at h; exact absurd h (by simp)
      | some m =>
          rw [hm] at h; dsimp only at h
          by_cases hlt : m.toSeconds < a.toSeconds
          · rw [if_pos hlt] at h; exact absurd h (by simp)
          · rw [if_neg hlt] at h; exact absurd h (by simp)

/-- The minimum of a time list is an element of it. -/
theorem minTime?_mem {ts : List Time} {t : Time} (h : minTime? ts = some t) :
    t ∈ ts := by
  induction ts with
  | nil => simp [minTime?] at h
  | cons a as ih =>
      rw [minTime?] at h
      cases hm : minTime? as with
      | none => rw [hm] at h; dsimp only at h; simp at h; simp [h]
      | some m =>
          rw [hm] at h; dsimp only at h
          by_cases hlt : m.toSeconds < a.toSeconds
          · rw [if_pos hlt] at h
            simp at h; subst h
            exact List.mem_cons_of_mem _ (ih hm)
          · rw [if_neg hlt] at h
            simp at h; simp [h]

/-- The minimum of a time list is at most every element. -/
theorem minTime?_le {ts : List Time} :
    ∀ {t : Time}, minTime? ts = some t → ∀ u ∈ ts, t.toSeconds ≤ u.toSeconds := by
  induction ts with
  | nil => intro t h _ hu; simp at hu
  | cons a as ih =>
      intro t h u hu
      rw [minTime?] at h
      cases hm : minTime? as with
      | none =>
          rw [hm] at h; dsimp only at h; simp at h; subst h
          have : as = [] := minTime?_eq_none hm
          subst this
          simp at hu; subst hu; exact Nat.le_refl _
      | some m =>
          rw [hm] at h; dsimp only at h
          rcases List.mem_cons.mp hu with hu | hu
          · subst hu
            by_cases hlt : m.toSeconds < u.toSeconds
            · rw [if_pos hlt] at h; simp at h; subst h; exact Nat.le_of_lt hlt
            · rw [if_neg hlt] at h; simp at h; subst h; exact Nat.le_refl _
          · by_cases hlt : m.toSeconds < a.toSeconds
            · rw [if_pos hlt] at h; simp at h; subst h; exact ih hm u hu
            · rw [if_neg hlt] at h; simp at h; subst h
              exact Nat.le_trans (Nat.le_of_not_lt hlt) (ih hm u hu)

/-- A triple survives the dropna step exactly when some input row has that
email and parses to exactly that date and time. -/
theorem mem_cleanRows (nrows : List NRow) (e : String) (d : Date) (t : Time) :
    (e, d, t) ∈ cleanRows nrows ↔
      ∃ r ∈ nrows, r.email = e ∧ r.date = some d ∧ r.time = some t := by
  unfold cleanRows
  rw [List.mem_filterMap]
  refine exists_congr fun r => and_congr_right fun _ => ?_
  rcases hd : r.date with _ | d2 <;> rcases ht : r.time with _ | t2 <;>
    simp [hd, ht]

/-- `save` re-derives the status from the check-in time and never changes
the check-in time, the date, or the linked user. -/
theorem attendanceSave_status (r : AttRecord) :
    (attendanceSave r).status = (if r.check_in_time.isSome then 'P' else 'A') ∧
    (attendanceSave r).check_in_time = r.check_in_time ∧
    (attendanceSave r).date = r.date ∧
    (attendanceSave r).employee = r.employee := by
  obtain ⟨emp, eml0, d0, ct, st⟩ := r
  unfold attendanceSave
  dsimp only
  by_cases hb : eml0 = ""
  · cases emp with
    | none => simp [hb]
    | some u =>
        by_cases hu : u.email = ""
        · simp [hb, hu]
        · simp [hb, hu]
  · simp [hb]

/-- `save` keeps the email key of a record written by the upsert loop: when
the linked user was looked up by that same email, an empty email key implies
the linked user's email is empty too, so the backfill never fires. -/
theorem attendanceSave_email (users : List UserRec) (eml : String)
    (r : AttRecord) (hemp : r.employee = findUserByEmail users eml)
    (hem : r.employee_email = eml) :
    (attendanceSave r).employee_email = eml := by
  obtain ⟨emp, eml0, d0, ct, st⟩ := r
  dsimp only at hemp hem
  subst hem
  unfold attendanceSave
  dsimp only
  by_cases hb : eml0 = ""
  · subst hb
    rw [hemp]
    cases hu : findUserByEmail users "" with
    | none => simp
    | some u =>
        have hpu : pyLower u.email = pyLower "" := by
          simpa using List.find?_some hu
        have hue : u.email = "" := pyLower_eq_empty hpu
        simp [hue]
  · simp [hb]

/-- Mapping over an in-place replacement is the identity when the
replacement preserves the mapped value on matching elements. -/
theorem map_replaceFirst {α β : Type} (p : α → Bool) (f : α → α) (g : α → β)
    (l : List α) (hpres : ∀ a, p a = true → g (f a) = g a) :
    (replaceFirst p f l).map g = l.map g := by
  induction l with
  | nil => rfl
  | cons a as ih =>
      rw [replaceFirst]
      by_cases hp : p a
      · rw [if_pos hp]; simp [hpres a hp]
      · rw [if_neg hp]; simp [ih]

/-- In-place replacement keeps the length. -/
theorem length_replaceFirst {α : Type} (p : α → Bool) (f : α → α)
    (l : List α) : (replaceFirst p f l).length = l.length := by
  induction l with
  | nil => rfl
  | cons a as ih =>
      rw [replaceFirst]
      by_cases hp : p a
      · rw [if_pos hp]; simp
      · rw [if_neg hp]; simp [ih]

/-- The image of the first match is in the replaced list. -/
theorem mem_replaceFirst {α : Type} {p : α → Bool} {f : α → α} {l : List α}
    {a : α} (h : l.find? p = some a) : f a ∈ replaceFirst p f l := by
  induction l with
  | nil => simp [List.find?] at h
  | cons b bs ih =>
      by_cases hp : p b
      · rw [List.find?_cons_of_pos _ hp] at h
        rw [replaceFirst, if_pos hp]
        simp at h
        simp [h]
      · rw [List.find?_cons_of_neg _ hp] at h
        rw [replaceFirst, if_neg hp]
        exact List.mem_cons_of_mem _ (ih h)

/-- A key is among the store keys exactly when some stored record carries
it. -/
theorem mem_storeKeys {store : List AttRecord} {k : String × Date} :
    k ∈ storeKeys store ↔
      ∃ r ∈ store, r.employee_email = k.1 ∧ r.date = k.2 := by
  simp [storeKeys, recordKey, List.mem_map, Prod.ext_iff]

/-- The upsert lookup fails exactly when the key is absent from the store. -/
theorem find?_eq_none_iff {store : List AttRecord} {eml : String} {d : Date} :
    store.find? (fun r => r.employee_email = eml && r.date = d) = none ↔
      (eml, d) ∉ storeKeys store := by
  rw [List.find?_eq_none, mem_storeKeys]
  push_neg
  constructor
  · intro h r hr h1
    have := h r hr
    simp at this
    exact this h1
  · intro h r hr
    have := h r hr
    simp
    exact this

/-- Keys of an appended store. -/
theorem storeKeys_append (s1 s2 : List AttRecord) :
    storeKeys (s1 ++ s2) = storeKeys s1 ++ storeKeys s2 := by
  simp [storeKeys]

/-- The record created by a fresh upsert carries the looked-up key. -/
theorem newRecord_key (users : List UserRec) (eml : String) (d : Date)
    (t : Time) : recordKey (newRecord users eml d t) = (eml, d) := by
  unfold recordKey newRecord
  have he := attendanceSave_email users eml
    { employee := findUserByEmail users eml
      employee_email := eml
      date := d
      check_in_time := some t
      status := 'P' } rfl rfl
  have hs := attendanceSave_status
    { employee := findUserByEmail users eml
      employee_email := eml
      date := d
      check_in_time := some t
      status := 'P' }
  rw [he, hs.2.2.1]

/-- The record rewritten by an updating upsert keeps the looked-up key. -/
theorem updatedRecord_key (users : List UserRec) (r0 : AttRecord)
    (eml : String) (t : Time) (h0 : r0.employee_email = eml) :
    recordKey (updatedRecord users r0 eml t) = (eml, r0.date) := by
  unfold recordKey updatedRecord
  have he := attendanceSave_email users eml
    { r0 with
      check_in_time := some t
      status := 'P'
      employee := findUserByEmail users eml } rfl h0
  have hs := attendanceSave_status
    { r0 with
      check_in_time := some t
      status := 'P'
      employee := findUserByEmail users eml }
  rw [he, hs.2.2.1]

/-- A fresh upsert appends the new record and reports a creation. -/
theorem updateOrCreate_none {users : List UserRec} {store : List AttRecord}
    {eml : String} {d : Date} {t : Time}
    (h : store.find? (fun r => r.employee_email = eml && r.date = d) = none) :
    updateOrCreate users store eml d t =
      (store ++ [newRecord users eml d t], newRecord users eml d t, true) := by
  unfold updateOrCreate
  rw [h]

/-- An upsert that finds its key rewrites the first match in place and
reports an update. -/
theorem updateOrCreate_some {users : List UserRec} {store : List AttRecord}
    {eml : String} {d : Date} {t : Time} {r0 : AttRecord}
    (h : store.find? (fun r => r.employee_email = eml && r.date = d) = some r0) :
    updateOrCreate users store eml d t =
      (replaceFirst (fun r => r.employee_email = eml && r.date = d)
        (fun _ => updatedRecord users r0 eml t) store,
       updatedRecord users r0 eml t, false) := by
  unfold updateOrCreate
  rw [h]

/-- Upserting groups whose keys are fresh and pairwise distinct creates one
record per group, updates nothing, and appends exactly the group keys to the
store keys. -/
theorem upsertAll_fresh (users : List UserRec) :
    ∀ (gs : List ((String × Date) × Time)) (store : List AttRecord),
      (∀ g ∈ gs, groupKey g ∉ storeKeys store) →
      (gs.map groupKey).Nodup →
      (upsertAll users store gs).2.1 = gs.length ∧
      (upsertAll users store gs).2.2 = 0 ∧
      storeKeys (upsertAll users store gs).1 =
        storeKeys store ++ gs.map groupKey := by
  intro gs
  induction gs with
  | nil => intro store _ _; simp [upsertAll]
  | cons g gs ih =>
      intro store hfresh hnodup
      have hkey : groupKey g ∉ storeKeys store :=
        hfresh g (List.mem_cons_self _ _)
      have hfind : store.find?
          (fun r => r.employee_email = pyLower g.1.1 && r.date = g.1.2) = none := by
        rw [find?_eq_none_iff]
        exact hkey
      rw [upsertAll, updateOrCreate_none hfind]
      dsimp only
      have hkeys1 : storeKeys
          (store ++ [newRecord users (pyLower g.1.1) g.1.2 g.2]) =
          storeKeys store ++ [groupKey g] := by
        rw [storeKeys_append]
        simp only [storeKeys, List.map_cons, List.map_nil, newRecord_key]
        rfl
      have hfresh2 : ∀ g2 ∈ gs, groupKey g2 ∉ storeKeys
          (store ++ [newRecord users (pyLower g.1.1) g.1.2 g.2]) := by
        intro g2 hg2
        rw [hkeys1]
        simp only [List.mem_append, List.mem_singleton]
        rintro (hin | heq)
        · exact hfresh g2 (List.mem_cons_of_mem _ hg2) hin
        · rw [List.map_cons] at hnodup
          have hnd := List.nodup_cons.mp hnodup
          exact hnd.1 (heq ▸ List.mem_map_of_mem groupKey hg2)
      have hnodup2 : (gs.map groupKey).Nodup := by
        simp only [List.map_cons] at hnodup
        exact (List.nodup_cons.mp hnodup).2
      obtain ⟨h1, h2, h3⟩ := ih _ hfresh2 hnodup2
      refine ⟨by simp [h1], by simp [h2], by simp [h3, hkeys1]⟩

/-- Upserting groups whose keys all exist in the store creates nothing,
updates one record per group, and keeps the store keys unchanged. -/
theorem upsertAll_rerun (users : List UserRec) :
    ∀ (gs : List ((String × Date) × Time)) (store : List AttRecord),
      (∀ g ∈ gs, groupKey g ∈ storeKeys store) →
      (upsertAll users store gs).2.1 = 0 ∧
      (upsertAll users store gs).2.2 = gs.length ∧
      storeKeys (upsertAll users store gs).1 = storeKeys store := by
  intro gs
  induction gs with
  | nil => intro store _; simp [upsertAll]
  | cons g gs ih =>
      intro store hmem
      have hkey : groupKey g ∈ storeKeys store := hmem g (List.mem_cons_self _ _)
      cases hfind : store.find?
          (fun r => r.employee_email = pyLower g.1.1 && r.date = g.1.2) with
      | none => exact absurd hkey (find?_eq_none_iff.mp hfind)
      | some r0 =>
          have hr0 : r0.employee_email = pyLower g.1.1 ∧ r0.date = g.1.2 := by
            simpa using List.find?_some hfind
          rw [upsertAll, updateOrCreate_some hfind]
          dsimp only
          have hkeys : storeKeys (replaceFirst
              (fun r => r.employee_email = pyLower g.1.1 && r.date = g.1.2)
              (fun _ => updatedRecord users r0 (pyLower g.1.1) g.2) store) =
              storeKeys store := by
            apply map_replaceFirst
            intro a hpa
            have ha : a.employee_email = pyLower g.1.1 ∧ a.date = g.1.2 := by
              simpa using hpa
            rw [updatedRecord_key users r0 (pyLower g.1.1) g.2 hr0.1, hr0.2]
            rw [recordKey, ha.1, ha.2]
          have hmem2 : ∀ g2 ∈ gs, groupKey g2 ∈ storeKeys (replaceFirst
              (fun r => r.employee_email = pyLower g.1.1 && r.date = g.1.2)
              (fun _ => updatedRecord users r0 (pyLower g.1.1) g.2) store) := by
            intro g2 hg2
            rw [hkeys]
            exact hmem g2 (List.mem_cons_of_mem _ hg2)
          obtain ⟨h1, h2, h3⟩ := ih _ hmem2
          refine ⟨by simp [h1], by simp [h2], by simp [h3, hkeys]⟩

/-- First components of a filterMap that pairs keys with optional values:
exactly the keys whose value is present. -/
theorem map_fst_filterMap_pair {α β : Type} (f : α → Option β) (l : List α) :
    (l.filterMap (fun k => (f k).map (fun b => (k, b)))).map Prod.fst =
      l.filter (fun k => (f k).isSome) := by
  induction l with
  | nil => rfl
  | cons a as ih => cases hf : f a <;> simp [hf, ih]

/-- The keys of the earliest-groups list are pairwise distinct. -/
theorem nodup_map_fst_earliestGroups (clean : List (String × Date × Time)) :
    ((earliestGroups clean).map Prod.fst).Nodup := by
  unfold earliestGroups
  rw [map_fst_filterMap_pair]
  exact (nodup_firstDedup _).filter _

/-- Membership in the earliest-groups list names a deduplicated key and its
group minimum. -/
theorem mem_earliestGroups {clean : List (String × Date × Time)}
    {k : String × Date} {t : Time} (h : (k, t) ∈ earliestGroups clean) :
    k ∈ firstDedup (clean.map (fun c => (c.1, c.2.1))) ∧
    minTime? (groupTimes clean k) = some t := by
  unfold earliestGroups at h
  rw [List.mem_filterMap] at h
  obtain ⟨k2, hk2, hmap⟩ := h
  cases hm : minTime? (groupTimes clean k2) with
  | none => rw [hm] at hmap; simp at hmap
  | some t2 =>
      rw [hm] at hmap
      simp at hmap
      obtain ⟨hk, ht⟩ := hmap
      subst hk
      subst ht
      exact ⟨hk2, hm⟩

/-- Every identity appearing in a pipeline earliest-group is already
lowercased, because normalization lowercases it. -/
theorem email_lowered_in_earliest (cols : List String) (cd ct ce : String)
    (rows : List (List String)) :
    ∀ g ∈ earliestGroups (cleanRows (rows.map (normalizeRow cols cd ct ce))),
      pyLower g.1.1 = g.1.1 := by
  rintro ⟨⟨e, d⟩, t⟩ hg
  have h1 := (mem_earliestGroups hg).1
  rw [mem_firstDedup, List.mem_map] at h1
  obtain ⟨c, hc, hck⟩ := h1
  rcases c with ⟨e2, d2, t2⟩
  simp only [Prod.mk.injEq] at hck
  obtain ⟨he2, _⟩ := hck
  obtain ⟨r, hr, hre, _, _⟩ := (mem_cleanRows _ e2 d2 t2).mp hc
  rw [List.mem_map] at hr
  obtain ⟨row, _, hrn⟩ := hr
  have hmail : r.email = pyLower (pyStrip (cellAt cols row ce)) := by
    rw [← hrn]
    rfl
  dsimp only
  rw [← he2, ← hre, hmail, pyLower_idem]

/-- C1: on the spec's end-to-end scenario run against an empty store, the
pipeline creates exactly the record `a@x.com / 2024-05-01 @ 08:30` and
reports totalRows 3, distinctPairsAnyTime 2, unparseableTimeRows 1,
processedGroups 1, created 1, updated 0. -/
theorem claim_C1 :
    uploadAttendance [] [] tblScenario =
      ([⟨none, "a@x.com", ⟨2024, 5, 1⟩, some ⟨8, 30, 0⟩, 'P'⟩],
       .ok ⟨3, 2, 1, 1, 1, 0⟩) := by
  decide

/-- C2: the aggregator keys groups by `(identity, date)` and each group's
stored time is the minimum time of the group (it belongs to the group and is
at most every member); concretely, rows at 09:10 and 08:55 for `a@x.com` on
2024-05-01 yield the single record with check-in 08:55. -/
theorem claim_C2 :
    (∀ (clean : List (String × Date × Time)) (k : String × Date) (t : Time),
       minTime? (groupTimes clean k) = some t →
       t ∈ groupTimes clean k ∧
       ∀ u ∈ groupTimes clean k, t.toSeconds ≤ u.toSeconds) ∧
    (∀ (clean : List (String × Date × Time)) (k : String × Date) (t : Time),
       (k, t) ∈ earliestGroups clean →
       minTime? (groupTimes clean k) = some t) ∧
    uploadAttendance [] [] tblEarliest =
      ([⟨none, "a@x.com", ⟨2024, 5, 1⟩, some ⟨8, 55, 0⟩, 'P'⟩],
       .ok ⟨2, 1, 0, 1, 1, 0⟩) := by
  refine ⟨?_, ?_, by decide⟩
  · intro clean k t h
    exact ⟨minTime?_mem h, minTime?_le h⟩
  · intro clean k t h
    exact (mem_earliestGroups h).2

/-- Witness for C2: the minimum-selection facts evaluated on the concrete
two-row group of the claim. -/
theorem claim_C2_witness :
    minTime? (groupTimes
        [("a@x.com", ⟨2024, 5, 1⟩, ⟨9, 10, 0⟩),
         ("a@x.com", ⟨2024, 5, 1⟩, ⟨8, 55, 0⟩)] ("a@x.com", ⟨2024, 5, 1⟩)) =
      some ⟨8, 55, 0⟩ ∧
    (⟨8, 55, 0⟩ : Time) ∈ groupTimes
        [("a@x.com", ⟨2024, 5, 1⟩, ⟨9, 10, 0⟩),
         ("a@x.com", ⟨2024, 5, 1⟩, ⟨8, 55, 0⟩)] ("a@x.com", ⟨2024, 5, 1⟩) :=
  ⟨by decide,
   (claim_C2.1 [("a@x.com", ⟨2024, 5, 1⟩, ⟨9, 10, 0⟩),
      ("a@x.com", ⟨2024, 5, 1⟩, ⟨8, 55, 0⟩)] ("a@x.com", ⟨2024, 5, 1⟩)
      ⟨8, 55, 0⟩ (by decide)).1⟩

/-- C6: the time parse is a cascade in which each strategy runs only on
cells every earlier strategy left unparsed — generic day-first parse, the
two fixed slash-date formats, the two clock formats, then numeric cells as
Excel day serials; `"9:15"` parses to 09:15:00 and the serial `45000.5`
has time-of-day 12:00:00. -/
theorem claim_C6 :
    (∀ (s : String) (p : Option Date × Time),
       genericParseDayfirst (cleanTimeCell s.data) = some p →
       parseTimeCell s = some p.2) ∧
    (∀ (s : String) (t : Time),
       genericParseDayfirst (cleanTimeCell s.data) = none →
       parse_dmY_HMS (cleanTimeCell s.data) = some t →
       parseTimeCell s = some t) ∧
    (∀ (s : String) (t : Time),
       genericParseDayfirst (cleanTimeCell s.data) = none →
       parse_dmY_HMS (cleanTimeCell s.data) = none →
       parse_mdY_HMS (cleanTimeCell s.data) = some t →
       parseTimeCell s = some t) ∧
    (∀ (s : String) (t : Time),
       genericParseDayfirst (cleanTimeCell s.data) = none →
       parse_dmY_HMS (cleanTimeCell s.data) = none →
       parse_mdY_HMS (cleanTimeCell s.data) = none →
       parse_HMS (cleanTimeCell s.data) = some t →
       parseTimeCell s = some t) ∧
    (∀ (s : String) (t : Time),
       genericParseDayfirst (cleanTimeCell s.data) = none →
       parse_dmY_HMS (cleanTimeCell s.data) = none →
       parse_mdY_HMS (cleanTimeCell s.data) = none →
       parse_HMS (cleanTimeCell s.data) = none →
       parse_HM (cleanTimeCell s.data) = some t →
       parseTimeCell s = some t) ∧
    (∀ s : String,
       genericParseDayfirst (cleanTimeCell s.data) = none →
       parse_dmY_HMS (cleanTimeCell s.data) = none →
       parse_mdY_HMS (cleanTimeCell s.data) = none →
       parse_HMS (cleanTimeCell s.data) = none →
       parse_HM (cleanTimeCell s.data) = none →
       parseTimeCell s =
         (parseNumeric (cleanTimeCell s.data)).map excelSerialTime) ∧
    parseTimeCell "9:15" = some ⟨9, 15, 0⟩ ∧
    parseTimeCell "45000.5" = some ⟨12, 0, 0⟩ := by
  refine ⟨?_, ?_, ?_, ?_, ?_, ?_, by decide, by decide⟩
  · rintro s ⟨od, t⟩ h
    unfold parseTimeCell
    dsimp only
    rw [h]
  · intro s t h1 h2
    unfold parseTimeCell
    dsimp only
    rw [h1, h2]
  · intro s t h1 h2 h3
    unfold parseTimeCell
    dsimp only
    rw [h1, h2, h3]
  · intro s t h1 h2 h3 h4
    unfold parseTimeCell
    dsimp only
    rw [h1, h2, h3, h4]
  · intro s t h1 h2 h3 h4 h5
    unfold parseTimeCell
    dsimp only
    rw [h1, h2, h3, h4, h5]
  · intro s h1 h2 h3 h4 h5
    unfold parseTimeCell
    dsimp only
    rw [h1, h2, h3, h4, h5]

/-- Witness for C6: the first cascade stage applied to `"9:15"` and the
numeric stage applied to `"45000.5"`. -/
theorem claim_C6_witness :
    genericParseDayfirst (cleanTimeCell ("9:15".data)) =
      some (none, ⟨9, 15, 0⟩) ∧
    parseTimeCell "9:15" = some ⟨9, 15, 0⟩ ∧
    genericParseDayfirst (cleanTimeCell ("45000.5".data)) = none ∧
    parseTimeCell "45000.5" =
      (parseNumeric (cleanTimeCell ("45000.5".data))).map excelSerialTime :=
  ⟨by decide, claim_C6.1 "9:15" (none, ⟨9, 15, 0⟩) (by decide), by decide,
   claim_C6.2.2.2.2.2.1 "45000.5" (by decide) (by decide) (by decide)
     (by decide) (by decide)⟩

/-- C7: ambiguous `a/b/yyyy` dates with both fields at most 12 resolve
day-first (first field is the day), and `"03/04/2024"` parses to April 3rd,
2024. -/
theorem claim_C7 :
    (∀ a b y : Nat, 1 ≤ a → a ≤ 12 → 1 ≤ b → b ≤ 12 →
       mkDayfirst a b y = some ⟨y, b, a⟩) ∧
    pdDate "03/04/2024" = some ⟨2024, 4, 3⟩ := by
  refine ⟨?_, by decide⟩
  intro a b y h1 h2 h3 h4
  unfold mkDayfirst
  rw [if_pos]
  exact ⟨h1, by omega, h3, h4⟩

/-- Witness for C7: the day-first resolution applied to day 3, month 4. -/
theorem claim_C7_witness :
    1 ≤ 3 ∧ (3 : Nat) ≤ 12 ∧ 1 ≤ 4 ∧ (4 : Nat) ≤ 12 ∧
    mkDayfirst 3 4 2024 = some ⟨2024, 4, 3⟩ :=
  ⟨by decide, by decide, by decide, by decide,
   claim_C7.1 3 4 2024 (by decide) (by decide) (by decide) (by decide)⟩

/-- Counterexample to C8 as stated: a row whose identity cell is blank
(empty after stringify-and-trim) is NOT excluded from aggregation — the
pipeline stores a record under the empty identity. -/
theorem claim_C8_counterexample :
    uploadAttendance [] [] tblBlankIdentity =
      ([⟨none, "", ⟨2024, 5, 1⟩, some ⟨9, 0, 0⟩, 'P'⟩],
       .ok ⟨1, 1, 0, 1, 1, 0⟩) := by
  decide

/-- C8 (amended): a row contributes to aggregation exactly when its date AND
time both parsed; the identity never excludes a row, because stringification
always yields a string — in particular the blank-identity row of
`tblBlankIdentity` survives cleaning with identity `""`. -/
theorem claim_C8 :
    (∀ (nrows : List NRow) (e : String) (d : Date) (t : Time),
       (e, d, t) ∈ cleanRows nrows ↔
         ∃ r ∈ nrows, r.email = e ∧ r.date = some d ∧ r.time = some t) ∧
    ("", ⟨2024, 5, 1⟩, ⟨9, 0, 0⟩) ∈
      cleanRows (tblBlankIdentity.rows.map
        (normalizeRow (normHeaders tblBlankIdentity.headers)
          "date" "time" "email")) :=
  ⟨mem_cleanRows, by decide⟩

/-- The spec's in-order exact-membership scan agrees with the resolver's
membership test. -/
theorem specHasHeader_eq (name : String) (cols : List String) :
    specHasHeader name cols = cols.contains name := by
  induction cols with
  | nil => rfl
  | cons c cs ih =>
      rw [specHasHeader, ih]
      by_cases h : c = name
      · subst h; simp
      · simp [h]
        intro he
        exact absurd he.symm h

/-- The spec's email scan agrees with the resolver's search. -/
theorem specColEmail_eq (cols : List String) :
    specColEmail cols = colEmail cols := by
  unfold colEmail
  induction cols with
  | nil => rfl
  | cons c cs ih =>
      rw [specColEmail]
      by_cases hp : pyIn "email" c
      · rw [if_pos hp, List.find?_cons_of_pos _ hp]
      · rw [if_neg hp, List.find?_cons_of_neg _ hp, ih]

/-- The spec's date scan agrees with the resolver's fallback search. -/
theorem specScanDate_eq (cols : List String) :
    specScanDate cols =
      cols.find? (fun c => pyIn "date" c && !pyIn "month" c && !pyIn "report" c) := by
  induction cols with
  | nil => rfl
  | cons c cs ih =>
      rw [specScanDate]
      by_cases hp : (pyIn "date" c && !pyIn "month" c && !pyIn "report" c) = true
      · rw [if_pos hp,
          List.find?_cons_of_pos
            (p := fun c => pyIn "date" c && !pyIn "month" c && !pyIn "report" c) _ hp]
      · rw [if_neg hp,
          List.find?_cons_of_neg
            (p := fun c => pyIn "date" c && !pyIn "month" c && !pyIn "report" c) _ hp, ih]

/-- The spec's time scan agrees with the resolver's fallback search. -/
theorem specScanTime_eq (cols : List String) :
    specScanTime cols =
      cols.find? (fun c => pyIn "time" c && !pyIn "out" c && !pyIn "logout" c) := by
  induction cols with
  | nil => rfl
  | cons c cs ih =>
      rw [specScanTime]
      by_cases hp : (pyIn "time" c && !pyIn "out" c && !pyIn "logout" c) = true
      · rw [if_pos hp,
          List.find?_cons_of_pos
            (p := fun c => pyIn "time" c && !pyIn "out" c && !pyIn "logout" c) _ hp]
      · rw [if_neg hp,
          List.find?_cons_of_neg
            (p := fun c => pyIn "time" c && !pyIn "out" c && !pyIn "logout" c) _ hp, ih]

/-- The spec's candidate scan agrees with the resolver's candidate search. -/
theorem specTimeCands_eq (cols : List String) (cands : List String) :
    specTimeCands cols cands = cands.find? (fun c => cols.contains c) := by
  induction cands with
  | nil => rfl
  | cons cand cands ih =>
      rw [specTimeCands, specHasHeader_eq]
      by_cases hp : cols.contains cand
      · rw [if_pos hp, List.find?_cons_of_pos _ hp]
      · rw [if_neg hp, List.find?_cons_of_neg _ hp, ih]

/-- C4: on every header set the source's three column picks agree with the
resolution rules exactly as the spec words them — identity is the first
header containing "email"; date is the exact header "date", else the first
containing "date" but neither "month" nor "report"; time is the first exact
candidate among ("in time", "in_time", "intime", "check in time",
"check-in", "check_in"), else the exact header "time", else the first
containing "time" but neither "out" nor "logout". -/
theorem claim_C4 (cols : List String) :
    colEmail cols = specColEmail cols ∧
    colDate cols = specColDate cols ∧
    colTime cols = specColTime cols := by
  refine ⟨(specColEmail_eq cols).symm, ?_, ?_⟩
  · unfold colDate specColDate
    rw [specHasHeader_eq, specScanDate_eq]
  · unfold colTime specColTime
    rw [specTimeCands_eq, specHasHeader_eq, specScanTime_eq]

/-- C5: whenever any of the three columns cannot be resolved, the pipeline
returns the missing-columns error without touching the store, and the
reported labels name exactly the unresolved ones among Date, Time, Email. -/
theorem claim_C5 (users : List UserRec) (store : List AttRecord) (tbl : Table)
    (h : colDate (normHeaders tbl.headers) = none ∨
         colTime (normHeaders tbl.headers) = none ∨
         colEmail (normHeaders tbl.headers) = none) :
    uploadAttendance users store tbl =
      (store, .missingColumns (missingLabels (normHeaders tbl.headers))) ∧
    ("Date" ∈ missingLabels (normHeaders tbl.headers) ↔
       colDate (normHeaders tbl.headers) = none) ∧
    ("Time" ∈ missingLabels (normHeaders tbl.headers) ↔
       colTime (normHeaders tbl.headers) = none) ∧
    ("Email" ∈ missingLabels (normHeaders tbl.headers) ↔
       colEmail (normHeaders tbl.headers) = none) := by
  rcases hcd : colDate (normHeaders tbl.headers) with _ | cd <;>
    rcases hct : colTime (normHeaders tbl.headers) with _ | ct <;>
      rcases hce : colEmail (normHeaders tbl.headers) with _ | ce
  on_goal 8 => exact absurd h (by simp [hcd, hct, hce])
  all_goals
    refine ⟨by unfold uploadAttendance; dsimp only; rw [hcd, hct, hce],
      ?_, ?_, ?_⟩ <;>
      (unfold missingLabels; rw [hcd, hct, hce]; simp)

/-- Witness for C5: the headers `["email", "report date"]` resolve neither a
date nor a time column, and the pipeline leaves a nonempty store unchanged
while reporting the missing labels. -/
theorem claim_C5_witness :
    (colDate (normHeaders tblNoDateTime.headers) = none ∨
     colTime (normHeaders tblNoDateTime.headers) = none ∨
     colEmail (normHeaders tblNoDateTime.headers) = none) ∧
    uploadAttendance [] [⟨none, "x", ⟨2024, 1, 1⟩, none, 'A'⟩] tblNoDateTime =
      ([⟨none, "x", ⟨2024, 1, 1⟩, none, 'A'⟩],
       .missingColumns (missingLabels (normHeaders tblNoDateTime.headers))) :=
  ⟨by decide,
   (claim_C5 [] [⟨none, "x", ⟨2024, 1, 1⟩, none, 'A'⟩] tblNoDateTime
     (by decide)).1⟩

/-- C9: `save` derives the status from the check-in time — Present exactly
when a check-in time is set, Absent otherwise — without changing the
check-in time; hence the record written by every upsert carries the upsert's
time, is Present, and sits in the resulting store. -/
theorem claim_C9 :
    (∀ r : AttRecord,
       ((attendanceSave r).status = 'P' ↔
          (attendanceSave r).check_in_time.isSome = true) ∧
       ((attendanceSave r).status = 'A' ↔
          (attendanceSave r).check_in_time = none) ∧
       (attendanceSave r).check_in_time = r.check_in_time) ∧
    (∀ (users : List UserRec) (store : List AttRecord) (eml : String)
       (d : Date) (t : Time),
       (updateOrCreate users store eml d t).2.1.status = 'P' ∧
       (updateOrCreate users store eml d t).2.1.check_in_time = some t ∧
       (updateOrCreate users store eml d t).2.1 ∈
         (updateOrCreate users store eml d t).1) := by
  constructor
  · intro r
    obtain ⟨hst, hct, _, _⟩ := attendanceSave_status r
    refine ⟨?_, ?_, hct⟩
    · rw [hst, hct]
      cases r.check_in_time <;> simp
    · rw [hst, hct]
      cases r.check_in_time <;> simp
  · intro users store eml d t
    cases hfind : store.find? (fun r => r.employee_email = eml && r.date = d) with
    | none =>
        have hs := attendanceSave_status
          { employee := findUserByEmail users eml
            employee_email := eml
            date := d
            check_in_time := some t
            status := 'P' }
        refine ⟨?_, ?_, ?_⟩
        · rw [updateOrCreate_none hfind]
          dsimp only
          unfold newRecord
          rw [hs.1]
          rfl
        · rw [updateOrCreate_none hfind]
          dsimp only
          unfold newRecord
          exact hs.2.1
        · rw [updateOrCreate_none hfind]
          dsimp only
          exact List.mem_append_right _ (List.mem_singleton_self _)
    | some r0 =>
        have hs := attendanceSave_status
          { r0 with
            check_in_time := some t
            status := 'P'
            employee := findUserByEmail users eml }
        refine ⟨?_, ?_, ?_⟩
        · rw [updateOrCreate_some hfind]
          dsimp only
          unfold updatedRecord
          rw [hs.1]
          rfl
        · rw [updateOrCreate_some hfind]
          dsimp only
          unfold updatedRecord
          exact hs.2.1
        · rw [updateOrCreate_some hfind]
          dsimp only
          exact mem_replaceFirst hfind

/-- C10: when the upsert key already has a stored record, the write is an
update (not a create), the stored check-in time is unconditionally replaced
by the new batch time, the linked account is re-resolved from scratch to the
current lookup result, and the store size is unchanged. -/
theorem claim_C10 (users : List UserRec) (store : List AttRecord)
    (eml : String) (d : Date) (t : Time) (r0 : AttRecord)
    (hfind : store.find? (fun r => r.employee_email = eml && r.date = d) =
      some r0) :
    (updateOrCreate users store eml d t).2.2 = false ∧
    (updateOrCreate users store eml d t).2.1.check_in_time = some t ∧
    (updateOrCreate users store eml d t).2.1.employee =
      findUserByEmail users eml ∧
    (updateOrCreate users store eml d t).1.length = store.length := by
  have hs := attendanceSave_status
    { r0 with
      check_in_time := some t
      status := 'P'
      employee := findUserByEmail users eml }
  rw [updateOrCreate_some hfind]
  refine ⟨rfl, ?_, ?_, ?_⟩
  · dsimp only
    unfold updatedRecord
    exact hs.2.1
  · dsimp only
    unfold updatedRecord
    exact hs.2.2.2
  · dsimp only
    exact length_replaceFirst _ _ _

/-- Witness for C10: a store holding an 08:00 check-in for
`a@x.com / 2024-05-01` is overwritten by a later batch's 09:00 — the later
time replaces the earlier one. -/
theorem claim_C10_witness :
    ([⟨none, "a@x.com", ⟨2024, 5, 1⟩, some ⟨8, 0, 0⟩, 'P'⟩] :
        List AttRecord).find?
        (fun r => r.employee_email = "a@x.com" && r.date = ⟨2024, 5, 1⟩) =
      some ⟨none, "a@x.com", ⟨2024, 5, 1⟩, some ⟨8, 0, 0⟩, 'P'⟩ ∧
    (updateOrCreate [] [⟨none, "a@x.com", ⟨2024, 5, 1⟩, some ⟨8, 0, 0⟩, 'P'⟩]
        "a@x.com" ⟨2024, 5, 1⟩ ⟨9, 0, 0⟩).2.1.check_in_time =
      some ⟨9, 0, 0⟩ :=
  ⟨by decide,
   (claim_C10 [] [⟨none, "a@x.com", ⟨2024, 5, 1⟩, some ⟨8, 0, 0⟩, 'P'⟩]
     "a@x.com" ⟨2024, 5, 1⟩ ⟨9, 0, 0⟩
     ⟨none, "a@x.com", ⟨2024, 5, 1⟩, some ⟨8, 0, 0⟩, 'P'⟩ (by decide)).2.1⟩

/-- C3: running the pipeline twice on the same table starting from an empty
store creates one record per processed group and updates none on the first
run; the second run creates none and updates exactly that many; the store
size is unchanged by the second run and holds at most one record per
(identity, date) key. -/
theorem claim_C3 (users : List UserRec) (tbl : Table)
    (s1 s2 : List AttRecord) (d1 d2 : Diag)
    (h1 : uploadAttendance users [] tbl = (s1, .ok d1))
    (h2 : uploadAttendance users s1 tbl = (s2, .ok d2)) :
    d1.created = d1.processedGroups ∧ d1.updated = 0 ∧
    d2.created = 0 ∧ d2.updated = d1.processedGroups ∧
    s2.length = s1.length ∧ (storeKeys s1).Nodup := by
  unfold uploadAttendance at h1 h2
  dsimp only at h1 h2
  rcases hcd : colDate (normHeaders tbl.headers) with _ | cd <;>
    rcases hct : colTime (normHeaders tbl.headers) with _ | ct <;>
      rcases hce : colEmail (normHeaders tbl.headers) with _ | ce <;>
        rw [hcd, hct, hce] at h1 h2 <;>
          dsimp only at h1 h2
  any_goals (injection h1 with hfst hsnd; injection hsnd; done)
  injection h1 with hs1 hok1
  injection hok1 with hd1
  subst hs1
  subst hd1
  injection h2 with hs2 hok2
  injection hok2 with hd2
  subst hs2
  subst hd2
  set E := earliestGroups (cleanRows
    (List.map (normalizeRow (normHeaders tbl.headers) cd ct ce) tbl.rows))
    with hE
  have hlow := email_lowered_in_earliest (normHeaders tbl.headers) cd ct ce
    tbl.rows
  have hmapeq : E.map groupKey = E.map Prod.fst := by
    apply List.map_congr_left
    intro g hg
    rcases g with ⟨⟨e, dd⟩, tt⟩
    have hl := hlow _ hg
    simp only [groupKey]
    dsimp only at hl ⊢
    rw [hl]
  have hnd : (E.map groupKey).Nodup := by
    rw [hmapeq]
    exact nodup_map_fst_earliestGroups _
  obtain ⟨hc1, hu1, hk1⟩ :=
    upsertAll_fresh users E [] (by intro g hg; simp [storeKeys]) hnd
  have hmem : ∀ g ∈ E, groupKey g ∈ storeKeys (upsertAll users [] E).1 := by
    intro g hg
    rw [hk1]
    simp only [storeKeys, List.map_nil, List.nil_append]
    exact List.mem_map_of_mem groupKey hg
  obtain ⟨hc2, hu2, hk2⟩ := upsertAll_rerun users E _ hmem
  refine ⟨?_, ?_, ?_, ?_, ?_, ?_⟩
  · dsimp only
    exact hc1
  · dsimp only
    exact hu1
  · dsimp only
    exact hc2
  · dsimp only
    exact hu2
  · have hlen := congrArg List.length hk2
    simpa [storeKeys] using hlen
  · rw [hk1]
    simpa [storeKeys] using hnd

/-- Witness for C3: both runs of the pipeline on the end-to-end scenario
from the empty store, with the idempotence counts evaluated concretely. -/
theorem claim_C3_witness :
    uploadAttendance [] [] tblScenario =
      ([⟨none, "a@x.com", ⟨2024, 5, 1⟩, some ⟨8, 30, 0⟩, 'P'⟩],
       .ok ⟨3, 2, 1, 1, 1, 0⟩) ∧
    uploadAttendance [] [⟨none, "a@x.com", ⟨2024, 5, 1⟩, some ⟨8, 30, 0⟩, 'P'⟩]
        tblScenario =
      ([⟨none, "a@x.com", ⟨2024, 5, 1⟩, some ⟨8, 30, 0⟩, 'P'⟩],
       .ok ⟨3, 2, 1, 1, 0, 1⟩) ∧
    ((Diag.mk 3 2 1 1 1 0).created = (Diag.mk 3 2 1 1 1 0).processedGroups ∧
     (Diag.mk 3 2 1 1 1 0).updated = 0 ∧
     (Diag.mk 3 2 1 1 0 1).created = 0 ∧
     (Diag.mk 3 2 1 1 0 1).updated = (Diag.mk 3 2 1 1 1 0).processedGroups ∧
     ([⟨none, "a@x.com", ⟨2024, 5, 1⟩, some ⟨8, 30, 0⟩, 'P'⟩] :
        List AttRecord).length =
       ([⟨none, "a@x.com", ⟨2024, 5, 1⟩, some ⟨8, 30, 0⟩, 'P'⟩] :
        List AttRecord).length ∧
     (storeKeys [⟨none, "a@x.com", ⟨2024, 5, 1⟩, some ⟨8, 30, 0⟩, 'P'⟩]).Nodup) :=
  ⟨by decide, by decide,
   claim_C3 [] tblScenario _ _ _ _ (by decide) (by decide)⟩
